import Mathlib

/-!
# gowiki: page store, link rewrite and route validation

A shallow embedding of `wiki.go`.

* Go strings are modelled as lists of Unicode code points (`Str`); the texts
  considered are valid UTF-8, so that the regexp engine's rune-wise reading and
  the byte slice `m[1 : len(m)-1]` around the one-byte runes `[` and `]` agree.
* `regexp` is modelled by a backtracking matcher that lists the matches at a
  position in the order a backtracking search finds them (Go's leftmost-first
  rule), for the fragment the two patterns of the program use.
* `ioutil.ReadFile` and `ioutil.WriteFile` act on an explicit file-system state
  of regular files and directories with the access their permission bits give
  the process; a path is followed segment by segment, within the limits on the
  length of a name and of a path.
-/

namespace Wiki

/-- A Go string, as the list of its code points. -/
abbrev Str := List Char

/-! ## The regexp engine -/

/-- A pattern element that consumes exactly one character. -/
inductive CharClass where
  /-- A literal character, as in `/` or `\[`. -/
  | lit (c : Char)
  /-- The dot, without flag `s`: any character but a newline. -/
  | anyNotNL
  /-- A bracket class given by inclusive ranges, as in `[a-zA-Z0-9]`. -/
  | ranges (rs : List (Char × Char))

/-- Whether the one-character pattern accepts the character. -/
def CharClass.accepts : CharClass → Char → Bool
  | .lit c, x => x == c
  | .anyNotNL, x => x != '\n'
  | .ranges rs, x => rs.any fun r => decide (r.1 ≤ x) && decide (x ≤ r.2)

/-- The fragment of regexp syntax used by `validPath` and `linkPath`. -/
inductive Regexp where
  /-- The empty pattern. -/
  | empty
  /-- One character of a class. -/
  | one (k : CharClass)
  /-- Greedy `+` over a one-character pattern. -/
  | plus (k : CharClass)
  /-- Concatenation. -/
  | cat (a b : Regexp)
  /-- Alternation, the left branch preferred. -/
  | alt (a b : Regexp)
  /-- Capturing group number `n`. -/
  | cap (n : Nat) (a : Regexp)
  /-- The anchor `^` without flag `m`: beginning of text. -/
  | bot
  /-- The anchor `$` without flag `m`: end of text. -/
  | eot

/-- A literal string as a pattern. -/
def Regexp.str : Str → Regexp
  | [] => .empty
  | c :: cs => .cat (.one (.lit c)) (Regexp.str cs)

/-- The number of capturing groups, `(*Regexp).NumSubexp`. -/
def Regexp.NumSubexp : Regexp → Nat
  | .cat a b => max a.NumSubexp b.NumSubexp
  | .alt a b => max a.NumSubexp b.NumSubexp
  | .cap n a => max n a.NumSubexp
  | _ => 0

/-- A position in the text being matched: the number of characters before it
and the text after it. -/
structure Cursor where
  pos : Nat
  rest : Str
deriving DecidableEq, Repr

/-- The captured groups, most recent first. -/
abbrev Caps := List (Nat × Str)

/-- Zero or more characters of the class, longest run first. -/
def starRun (k : CharClass) : Nat → Str → List Cursor
  | pos, [] => [⟨pos, []⟩]
  | pos, c :: cs =>
    (if k.accepts c then starRun k (pos + 1) cs else []) ++ [⟨pos, c :: cs⟩]

/-- All the ways the pattern matches at the cursor, in the order a backtracking
search tries them: each is the cursor after the match with the groups captured. -/
def Regexp.run : Regexp → Cursor → Caps → List (Cursor × Caps)
  | .empty, cur, caps => [(cur, caps)]
  | .one k, cur, caps =>
    match cur.rest with
    | [] => []
    | c :: cs => if k.accepts c then [(⟨cur.pos + 1, cs⟩, caps)] else []
  | .plus k, cur, caps =>
    match cur.rest with
    | [] => []
    | c :: cs =>
      if k.accepts c then (starRun k (cur.pos + 1) cs).map fun e => (e, caps) else []
  | .cat a b, cur, caps => (a.run cur caps).flatMap fun r => b.run r.1 r.2
  | .alt a b, cur, caps => a.run cur caps ++ b.run cur caps
  | .cap n a, cur, caps =>
    (a.run cur caps).map fun r => (r.1, (n, cur.rest.take (r.1.pos - cur.pos)) :: r.2)
  | .bot, cur, caps => if cur.pos = 0 then [(cur, caps)] else []
  | .eot, cur, caps => if cur.rest = [] then [(cur, caps)] else []

/-- The leftmost match at or after position `pos`, where `rest` is the text
from `pos` on: the start of the match, the cursor after it, and the groups. -/
def findFrom (re : Regexp) : Nat → Str → Option (Nat × Cursor × Caps)
  | pos, [] =>
    match (re.run ⟨pos, []⟩ []).head? with
    | some r => some (pos, r.1, r.2)
    | none => none
  | pos, c :: cs =>
    match (re.run ⟨pos, c :: cs⟩ []).head? with
    | some r => some (pos, r.1, r.2)
    | none => findFrom re (pos + 1) cs

/-- The search `doExecute(src, searchPos)` of package `regexp`: the leftmost
match starting at or after `searchPos`, if any. -/
def doExecute (re : Regexp) (src : Str) (searchPos : Nat) : Option (Nat × Cursor × Caps) :=
  findFrom re searchPos (src.drop searchPos)

/-- The text of group `n`, empty when the group did not take part. -/
def group (caps : Caps) (n : Nat) : Str :=
  match caps.find? fun e => e.1 == n with
  | some e => e.2
  | none => []

/-- The method `(*Regexp).FindStringSubmatch`: nil (the empty list) when there
is no match, else the matched text followed by the text of each group. -/
def FindStringSubmatch (re : Regexp) (s : Str) : List Str :=
  match doExecute re s 0 with
  | none => []
  | some (a0, cur, caps) =>
    (s.drop a0).take (cur.pos - a0) :: (List.range re.NumSubexp).map fun i => group caps (i + 1)

/-- The loop of `(*Regexp).replaceAll`, one round per unit of fuel. -/
def replaceAllLoop (re : Regexp) (src : Str) (repl : Str → Str) :
    Nat → Nat → Nat → Str → Str
  | 0, lastMatchEnd, _, buf => buf ++ src.drop lastMatchEnd
  | fuel + 1, lastMatchEnd, searchPos, buf =>
    if searchPos ≤ src.length then
      match doExecute re src searchPos with
      | none => buf ++ src.drop lastMatchEnd
      | some (a0, cur, _) =>
        let a1 := cur.pos
        let buf1 := buf ++ (src.drop lastMatchEnd).take (a0 - lastMatchEnd)
        let buf2 :=
          if a1 > lastMatchEnd ∨ a0 = 0 then buf1 ++ repl ((src.drop a0).take (a1 - a0))
          else buf1
        let width := if searchPos < src.length then 1 else 0
        let next :=
          if searchPos + width > a1 then searchPos + width
          else if searchPos + 1 > a1 then searchPos + 1
          else a1
        replaceAllLoop re src repl fuel a1 next buf2
    else buf ++ src.drop lastMatchEnd

/-- The method `(*Regexp).ReplaceAllStringFunc`: every match, left to right and
without overlap, is replaced by `repl` of the matched text. Each round moves
`searchPos` forward, so `len(src) + 2` rounds are never used up. -/
def ReplaceAllStringFunc (re : Regexp) (src : Str) (repl : Str → Str) : Str :=
  replaceAllLoop re src repl (src.length + 2) 0 0 []

/-! ## The program -/

/-- The pattern `^/(edit|save|view)/([a-zA-Z0-9]+)$`. -/
def validPath : Regexp :=
  .cat .bot
    (.cat (.one (.lit '/'))
      (.cat (.cap 1 (.alt (.str "edit".toList) (.alt (.str "save".toList) (.str "view".toList))))
        (.cat (.one (.lit '/'))
          (.cat (.cap 2 (.plus (.ranges [('a', 'z'), ('A', 'Z'), ('0', '9')]))) .eot))))

/-- The pattern `\[.+\]`. -/
def linkPath : Regexp :=
  .cat (.one (.lit '[')) (.cat (.plus .anyNotNL) (.one (.lit ']')))

/-- The directory the pages are stored in. -/
def dataDir : Str := "data".toList

/-! ### The file system -/

/-- The segments of a path: the text between the occurrences of `sep`. -/
def splitOn (sep : Char) : Str → List Str
  | [] => [[]]
  | c :: cs =>
    if c = sep then [] :: splitOn sep cs
    else
      match splitOn sep cs with
      | [] => [[c]]
      | seg :: segs => (c :: seg) :: segs

/-- One step of lexical path cleaning, on the segments kept so far (last one
first): empty and `.` segments are dropped, `..` removes the segment before it,
and is kept where there is none to remove. -/
def cleanStep (kept : List Str) (seg : Str) : List Str :=
  if seg = [] ∨ seg = ".".toList then kept
  else if seg = "..".toList then
    match kept with
    | [] => [seg]
    | top :: below => if top = "..".toList then seg :: kept else below
  else seg :: kept

/-- The location a relative path denotes once its `.` and `..` segments are
normalised: the segments leading to it from the working directory. -/
def resolve (name : Str) : List Str :=
  ((splitOn '/' name).foldl cleanStep []).reverse

/-- What a location holds. The flags of a file say whether its permission bits
let the user of the process read it and write it, those of a directory whether
they let that user search it and write to it. -/
inductive Node where
  | file (mayRead mayWrite : Bool) (data : List UInt8)
  | dir (maySearch mayWrite : Bool)
deriving DecidableEq

/-- The state of the file system, as the process sees it: whether the process
runs as the superuser, its umask, the limits on the length of a name and of a
path, and the nodes by location, the first entry for a location being the
current one. The location `[]` is the working directory, `[".."]` the directory
above it, and so on. Symbolic links and special files are not modelled. -/
structure FS where
  superuser : Bool
  umask : Nat
  NAME_MAX : Nat
  PATH_MAX : Nat
  nodes : List (List Str × Node)
deriving DecidableEq

/-- The node at a location, if any. -/
def FS.lookup (fs : FS) (key : List Str) : Option Node :=
  (fs.nodes.find? fun e => e.1 == key).map fun e => e.2

/-- Whether the process has an access that the permission bits grant or deny:
the superuser has every access. -/
def FS.may (fs : FS) (granted : Bool) : Bool :=
  fs.superuser || granted

/-- The state with a node put at a location. -/
def FS.put (fs : FS) (key : List Str) (node : Node) : FS :=
  { fs with nodes := (key, node) :: fs.nodes }

/-- The error numbers the model distinguishes. -/
inductive Errno where
  | ENOENT
  | EISDIR
  | ENOTDIR
  | EACCES
  | ENAMETOOLONG
  | EINVAL
deriving DecidableEq

/-- The error `*os.PathError`. -/
structure PathError where
  Op : Str
  Path : Str
  Err : Errno
deriving DecidableEq

/-- The length of a Go string, `len(s)`: the number of bytes of its UTF-8
form. -/
def utf8Len : Str → Nat
  | [] => 0
  | c :: cs => c.utf8Size + utf8Len cs

/-- The directory above a location. -/
def parent (loc : List Str) : List Str :=
  match loc.getLast? with
  | some seg => if seg = "..".toList then loc ++ ["..".toList] else loc.dropLast
  | none => ["..".toList]

/-- Following the segments of a path from a location, as the system does: the
location each segment is looked up in must be a directory the process may
search, and a name must not be longer than `NAME_MAX`. The location reached by
the last segment is not examined. -/
def walk (fs : FS) : List Str → List Str → Except Errno (List Str)
  | loc, [] => .ok loc
  | loc, seg :: segs =>
    match fs.lookup loc with
    | none => .error .ENOENT
    | some (.file _ _ _) => .error .ENOTDIR
    | some (.dir maySearch _) =>
      if fs.may maySearch = false then .error .EACCES
      else if seg = [] ∨ seg = ".".toList then walk fs loc segs
      else if seg = "..".toList then walk fs (parent loc) segs
      else if fs.NAME_MAX < utf8Len seg then .error .ENAMETOOLONG
      else walk fs (loc ++ [seg]) segs

/-- The location a relative path leads to, or the error of the lookup. -/
def locate (fs : FS) (filename : Str) : Except Errno (List Str) :=
  if filename = [] then .error .ENOENT
  else if '\x00' ∈ filename then .error .EINVAL
  else if fs.PATH_MAX ≤ utf8Len filename then .error .ENAMETOOLONG
  else walk fs [] (splitOn '/' filename)

/-- The permission bits of a file created with `perm`: those the umask
leaves. -/
def createMode (perm umask : Nat) : Nat :=
  perm ^^^ (perm &&& umask)

/-- The function `ioutil.WriteFile`. An existing file is replaced as a whole and
keeps its permission bits; otherwise the file is created, owned by the user of
the process, with the bits of `perm` that the umask leaves, in a directory that
must be writable. -/
def WriteFile (fs : FS) (filename : Str) (data : List UInt8) (perm : Nat) :
    Except PathError FS :=
  match locate fs filename with
  | .error e => .error ⟨"open".toList, filename, e⟩
  | .ok loc =>
    match fs.lookup loc with
    | some (.dir _ _) => .error ⟨"open".toList, filename, .EISDIR⟩
    | some (.file mayRead mayWrite _) =>
      if fs.may mayWrite then .ok (fs.put loc (.file mayRead mayWrite data))
      else .error ⟨"open".toList, filename, .EACCES⟩
    | none =>
      match fs.lookup loc.dropLast with
      | some (.dir _ mayWrite) =>
        if fs.may mayWrite then
          .ok (fs.put loc
            (.file ((createMode perm fs.umask).testBit 8) ((createMode perm fs.umask).testBit 7)
              data))
        else .error ⟨"open".toList, filename, .EACCES⟩
      | some (.file _ _ _) => .error ⟨"open".toList, filename, .ENOTDIR⟩
      | none => .error ⟨"open".toList, filename, .ENOENT⟩

/-! ### Pages -/

/-- The type `Page`. -/
structure Page where
  Title : Str
  Body : List UInt8
deriving DecidableEq

/-- The local `filename` of `save` and of `loadPage`:
`dataDir + "/" + title + ".txt"`. -/
def filename (title : Str) : Str :=
  dataDir ++ "/".toList ++ title ++ ".txt".toList

/-- A valid title: not empty, ASCII letters and digits only. -/
def validTitle (t : Str) : Prop :=
  t ≠ [] ∧ ∀ c ∈ t, c.isAlphanum = true

/-- Whether a location lies inside the directory `dataDir`, that is below it. -/
def insideDataDir (key : List Str) : Bool :=
  key.take (resolve dataDir).length == resolve dataDir
    && decide ((resolve dataDir).length < key.length)

/-- The method `(*Page).save` (its log line left out). -/
def Page.save (p : Page) (fs : FS) : Except PathError FS :=
  WriteFile fs (filename p.Title) p.Body 0o600

/-- The state used in the examples: an ordinary user with umask `022`, the
limits of Linux, a working directory and in it the directory `data`, both open
to the user. -/
def fsAfterSetup : FS :=
  ⟨false, 0o022, 255, 4096, [([], .dir true true), ([dataDir], .dir true true)]⟩

/-! ### Rendering -/

/-- The function literal given to `ReplaceAllStringFunc`. -/
def linkFunc (m : Str) : Str :=
  let page := (m.take (m.length - 1)).drop 1
  "<a href=\"/view/".toList ++ page ++ "\">".toList ++ page ++ "</a>".toList

/-- The link rewrite of `renderTemplateWithWikiSyntax`:
`s = linkPath.ReplaceAllStringFunc(s, ...)`. -/
def wikiSyntax (s : Str) : Str :=
  ReplaceAllStringFunc linkPath s linkFunc

/-- The text of a link: an `a` element whose destination is `/view/` followed
by `dest` and whose visible text is `label`. -/
def anchor (dest label : Str) : Str :=
  "<a href=\"/view/".toList ++ dest ++ "\">".toList ++ label ++ "</a>".toList

/-- What has been sent through a `http.ResponseWriter`. -/
structure ResponseWriter where
  status : Option Nat
  body : Str
deriving DecidableEq

/-- The method `WriteHeader`: the first status code stands. -/
def ResponseWriter.WriteHeader (w : ResponseWriter) (code : Nat) : ResponseWriter :=
  match w.status with
  | none => { w with status := some code }
  | some _ => w

/-- The method `Write`, which sends status 200 first when none was sent. -/
def ResponseWriter.Write (w : ResponseWriter) (data : Str) : ResponseWriter :=
  { w.WriteHeader 200 with body := w.body ++ data }

/-- The function `http.Error`. -/
def httpError (w : ResponseWriter) (error : Str) (code : Nat) : ResponseWriter :=
  (w.WriteHeader code).Write (error ++ "\n".toList)

/-- The function `renderTemplateWithWikiSyntax`. The templates are files outside
the program text, so `ExecuteTemplate` is a parameter: it gives the text written
to the buffer and the error, if any. -/
def renderTemplateWithWikiSyntax (ExecuteTemplate : Str → Page → Str × Option Str)
    (w : ResponseWriter) (tmpl : Str) (p : Page) : ResponseWriter :=
  let out := ExecuteTemplate (tmpl ++ ".html".toList) p
  let w1 :=
    match out.2 with
    | some err => httpError w err 500
    | none => w
  w1.Write (wikiSyntax out.1)

/-! ### Routing -/

/-- What a request handler made by `makeHandle` does, in order. -/
inductive Event where
  /-- The call `http.NotFound(w, r)`. -/
  | notFound
  /-- The log line written before the wrapped handler runs. -/
  | logStarted (action title : Str)
  /-- The call `handle(w, r, title)` of the wrapped handler. -/
  | handle (title : Str)
  /-- The log line of the deferred function. -/
  | logFinished (action title : Str)
deriving DecidableEq

/-- How the handler ends. -/
inductive Exit where
  /-- A normal return. -/
  | returned
  /-- The run-time panic `index out of range [index] with length length`. -/
  | indexOutOfRange (index length : Nat)
deriving DecidableEq

/-- A run of a handler. -/
structure Run where
  events : List Event
  exit : Exit
deriving DecidableEq

/-- The handler returned by `makeHandle`, run on the request path. The wrapped
handler is abstract: its call is the event `handle title`. -/
def makeHandle (path : Str) : Run :=
  let m := FindStringSubmatch validPath path
  let seen : List Event := if m = [] then [.notFound] else []
  match m[2]? with
  | none => ⟨seen, .indexOutOfRange 2 m.length⟩
  | some title =>
    match m[1]? with
    | none => ⟨seen, .indexOutOfRange 1 m.length⟩
    | some action =>
      ⟨seen ++ [.logStarted action title, .handle title, .logFinished action title], .returned⟩

/-! ## Facts about the matcher -/

theorem mem_starRun (k : CharClass) (e : Cursor) :
    ∀ (cs : Str) (pos : Nat), e ∈ starRun k pos cs ↔
      ∃ w : Str, (∀ c ∈ w, k.accepts c = true) ∧ cs = w ++ e.rest ∧ e.pos = pos + w.length := by
  intro cs
  induction cs with
  | nil =>
    intro pos
    simp only [starRun, List.mem_singleton]
    constructor
    · rintro rfl
      exact ⟨[], by simp, by simp, by simp⟩
    · rintro ⟨w, -, hw, hp⟩
      have h1 : w = [] := (List.append_eq_nil.mp hw.symm).1
      have h2 : e.rest = [] := (List.append_eq_nil.mp hw.symm).2
      subst h1
      obtain ⟨p1, r1⟩ := e
      simp only at h2 hp
      subst h2
      simp [hp]
  | cons c cs ih =>
    intro pos
    simp only [starRun, List.mem_append, List.mem_singleton]
    constructor
    · rintro (h | rfl)
      · by_cases hc : k.accepts c = true
        · rw [if_pos hc] at h
          obtain ⟨w, hw, hcs, hp⟩ := (ih (pos + 1)).mp h
          refine ⟨c :: w, ?_, by simp [hcs], by simp [hp]; omega⟩
          intro x hx
          rcases List.mem_cons.mp hx with rfl | hx
          · exact hc
          · exact hw x hx
        · rw [if_neg hc] at h
          cases h
      · exact ⟨[], by simp, by simp, by simp⟩
    · rintro ⟨w, hw, hcs, hp⟩
      cases w with
      | nil =>
        right
        cases e
        simp_all
      | cons x w =>
        left
        have hx : x = c := by
          have := congrArg List.head? hcs
          simpa using this.symm
        subst hx
        have hc : k.accepts x = true := hw x (List.mem_cons_self _ _)
        rw [if_pos hc]
        refine (ih (pos + 1)).mpr ⟨w, fun y hy => hw y (List.mem_cons_of_mem _ hy), ?_, ?_⟩
        · simpa using hcs
        · simp at hp
          omega

theorem mem_run_empty (cur : Cursor) (caps : Caps) (r : Cursor × Caps) :
    r ∈ Regexp.empty.run cur caps ↔ r = (cur, caps) := by
  simp [Regexp.run]

theorem mem_run_one (k : CharClass) (cur : Cursor) (caps : Caps) (r : Cursor × Caps) :
    r ∈ (Regexp.one k).run cur caps ↔
      ∃ c cs, cur.rest = c :: cs ∧ k.accepts c = true ∧ r = (⟨cur.pos + 1, cs⟩, caps) := by
  obtain ⟨pos, rest⟩ := cur
  cases rest with
  | nil => simp [Regexp.run]
  | cons c cs =>
    by_cases hc : k.accepts c = true
    · simp only [Regexp.run, hc, if_true, List.mem_singleton]
      constructor
      · rintro rfl
        exact ⟨c, cs, rfl, hc, rfl⟩
      · rintro ⟨x, xs, hx, -, rfl⟩
        obtain ⟨rfl, rfl⟩ := List.cons.inj hx
        rfl
    · simp only [Regexp.run, hc, Bool.false_eq_true, if_false, List.not_mem_nil, false_iff]
      rintro ⟨x, xs, hx, hacc, -⟩
      obtain ⟨rfl, rfl⟩ := List.cons.inj hx
      exact hc hacc

theorem mem_run_plus (k : CharClass) (cur : Cursor) (caps : Caps) (r : Cursor × Caps) :
    r ∈ (Regexp.plus k).run cur caps ↔
      ∃ w : Str, w ≠ [] ∧ (∀ c ∈ w, k.accepts c = true) ∧ cur.rest = w ++ r.1.rest ∧
        r.1.pos = cur.pos + w.length ∧ r.2 = caps := by
  obtain ⟨pos, rest⟩ := cur
  obtain ⟨e, caps1⟩ := r
  cases rest with
  | nil =>
    simp only [Regexp.run, List.not_mem_nil, false_iff]
    rintro ⟨w, hw, -, h, -⟩
    exact hw (List.append_eq_nil.mp h.symm).1
  | cons c cs =>
    simp only [Regexp.run]
    constructor
    · intro h
      by_cases hc : k.accepts c = true
      · rw [if_pos hc] at h
        obtain ⟨e1, he1, heq⟩ := List.mem_map.mp h
        obtain ⟨rfl, rfl⟩ := Prod.mk.inj heq
        obtain ⟨w, hw, hcs, hp⟩ := (mem_starRun k e1 cs (pos + 1)).mp he1
        refine ⟨c :: w, by simp, ?_, by simp [hcs], by simp [hp]; omega, rfl⟩
        intro x hx
        rcases List.mem_cons.mp hx with rfl | hx
        · exact hc
        · exact hw x hx
      · rw [if_neg hc] at h
        cases h
    · rintro ⟨w, hne, hw, hcs, hp, hcaps⟩
      cases w with
      | nil => exact absurd rfl hne
      | cons x w =>
        simp only [List.cons_append, List.cons.injEq] at hcs
        obtain ⟨rfl, hcs⟩ := hcs
        have hc : k.accepts c = true := hw c (List.mem_cons_self _ _)
        rw [if_pos hc]
        refine List.mem_map.mpr ⟨e, ?_, by rw [show caps1 = caps from hcaps]⟩
        refine (mem_starRun k e cs (pos + 1)).mpr
          ⟨w, fun y hy => hw y (List.mem_cons_of_mem _ hy), hcs, ?_⟩
        simp at hp
        omega

theorem mem_run_cat (a b : Regexp) (cur : Cursor) (caps : Caps) (r : Cursor × Caps) :
    r ∈ (Regexp.cat a b).run cur caps ↔ ∃ m ∈ a.run cur caps, r ∈ b.run m.1 m.2 := by
  simp [Regexp.run, List.mem_flatMap]

theorem mem_run_alt (a b : Regexp) (cur : Cursor) (caps : Caps) (r : Cursor × Caps) :
    r ∈ (Regexp.alt a b).run cur caps ↔ r ∈ a.run cur caps ∨ r ∈ b.run cur caps := by
  simp [Regexp.run]

theorem mem_run_cap (n : Nat) (a : Regexp) (cur : Cursor) (caps : Caps) (r : Cursor × Caps) :
    r ∈ (Regexp.cap n a).run cur caps ↔
      ∃ m ∈ a.run cur caps, r = (m.1, (n, cur.rest.take (m.1.pos - cur.pos)) :: m.2) := by
  simp only [Regexp.run, List.mem_map]
  constructor
  · rintro ⟨m, hm, rfl⟩
    exact ⟨m, hm, rfl⟩
  · rintro ⟨m, hm, rfl⟩
    exact ⟨m, hm, rfl⟩

theorem mem_run_bot (cur : Cursor) (caps : Caps) (r : Cursor × Caps) :
    r ∈ Regexp.bot.run cur caps ↔ cur.pos = 0 ∧ r = (cur, caps) := by
  by_cases h : cur.pos = 0 <;> simp [Regexp.run, h]

theorem mem_run_eot (cur : Cursor) (caps : Caps) (r : Cursor × Caps) :
    r ∈ Regexp.eot.run cur caps ↔ cur.rest = [] ∧ r = (cur, caps) := by
  by_cases h : cur.rest = [] <;> simp [Regexp.run, h]

theorem mem_run_str (r : Cursor × Caps) (caps : Caps) :
    ∀ (w : Str) (cur : Cursor), r ∈ (Regexp.str w).run cur caps ↔
      cur.rest = w ++ r.1.rest ∧ r.1.pos = cur.pos + w.length ∧ r.2 = caps := by
  intro w
  induction w with
  | nil =>
    intro cur
    obtain ⟨e, caps1⟩ := r
    obtain ⟨p1, r1⟩ := e
    obtain ⟨p0, r0⟩ := cur
    simp only [Regexp.str, mem_run_empty, Prod.mk.injEq, Cursor.mk.injEq, List.nil_append,
      List.length_nil, Nat.add_zero]
    constructor
    · rintro ⟨⟨rfl, rfl⟩, rfl⟩
      exact ⟨rfl, rfl, rfl⟩
    · rintro ⟨rfl, rfl, rfl⟩
      exact ⟨⟨rfl, rfl⟩, rfl⟩
  | cons c w ih =>
    intro cur
    simp only [Regexp.str, mem_run_cat, mem_run_one, CharClass.accepts, beq_iff_eq]
    constructor
    · rintro ⟨m, ⟨x, cs, hrest, rfl, rfl⟩, hr⟩
      obtain ⟨h1, h2, h3⟩ := (ih _).mp hr
      simp only at h1 h2 h3
      refine ⟨by simp [hrest, h1], by simp [h2]; omega, h3⟩
    · rintro ⟨h1, h2, h3⟩
      refine ⟨(⟨cur.pos + 1, w ++ r.1.rest⟩, caps), ⟨c, w ++ r.1.rest, by simpa using h1, rfl, rfl⟩,
        (ih _).mpr ⟨rfl, ?_, h3⟩⟩
      simp at h2 ⊢
      omega

theorem run_pos_le :
    ∀ (re : Regexp) (cur : Cursor) (caps : Caps) (r : Cursor × Caps),
      r ∈ re.run cur caps → cur.pos ≤ r.1.pos := by
  intro re
  induction re with
  | empty =>
    intro cur caps r h
    rw [(mem_run_empty cur caps r).mp h]
  | one k =>
    intro cur caps r h
    obtain ⟨c, cs, -, -, rfl⟩ := (mem_run_one k cur caps r).mp h
    exact Nat.le_succ _
  | plus k =>
    intro cur caps r h
    obtain ⟨w, -, -, -, hp, -⟩ := (mem_run_plus k cur caps r).mp h
    rw [hp]
    exact Nat.le_add_right _ _
  | cat a b iha ihb =>
    intro cur caps r h
    obtain ⟨m, hm, hr⟩ := (mem_run_cat a b cur caps r).mp h
    exact Nat.le_trans (iha cur caps m hm) (ihb m.1 m.2 r hr)
  | alt a b iha ihb =>
    intro cur caps r h
    rcases (mem_run_alt a b cur caps r).mp h with h | h
    · exact iha cur caps r h
    · exact ihb cur caps r h
  | cap n a iha =>
    intro cur caps r h
    obtain ⟨m, hm, rfl⟩ := (mem_run_cap n a cur caps r).mp h
    exact iha cur caps m hm
  | bot =>
    intro cur caps r h
    rw [((mem_run_bot cur caps r).mp h).2]
  | eot =>
    intro cur caps r h
    rw [((mem_run_eot cur caps r).mp h).2]

/-! ## The leftmost search -/

theorem findFrom_of_head (re : Regexp) (pos : Nat) (rest : Str) (r : Cursor × Caps)
    (l : List (Cursor × Caps)) (h : re.run ⟨pos, rest⟩ [] = r :: l) :
    findFrom re pos rest = some (pos, r.1, r.2) := by
  cases rest <;> simp only [findFrom, h, List.head?_cons]

theorem findFrom_nil_of_nil (re : Regexp) (pos : Nat) (h : re.run ⟨pos, []⟩ [] = []) :
    findFrom re pos [] = none := by
  simp only [findFrom, h, List.head?_nil]

theorem findFrom_cons_of_nil (re : Regexp) (pos : Nat) (c : Char) (cs : Str)
    (h : re.run ⟨pos, c :: cs⟩ [] = []) :
    findFrom re pos (c :: cs) = findFrom re (pos + 1) cs := by
  simp only [findFrom, h, List.head?_nil]

theorem findFrom_none (re : Regexp) :
    ∀ (rest : Str) (pos : Nat),
      (∀ a b : Str, rest = a ++ b → re.run ⟨pos + a.length, b⟩ [] = []) →
      findFrom re pos rest = none := by
  intro rest
  induction rest with
  | nil =>
    intro pos h
    exact findFrom_nil_of_nil re pos (by simpa using h [] [] rfl)
  | cons c cs ih =>
    intro pos h
    rw [findFrom_cons_of_nil re pos c cs (by simpa using h [] (c :: cs) rfl)]
    apply ih
    intro a b hab
    have := h (c :: a) b (by simp [hab])
    simpa [Nat.add_assoc, Nat.add_comm 1] using this

theorem findFrom_some (re : Regexp) (b : Str) (r : Cursor × Caps) (l : List (Cursor × Caps)) :
    ∀ (pre : Str) (pos : Nat),
      (∀ a c : Str, pre = a ++ c → c ≠ [] → re.run ⟨pos + a.length, c ++ b⟩ [] = []) →
      re.run ⟨pos + pre.length, b⟩ [] = r :: l →
      findFrom re pos (pre ++ b) = some (pos + pre.length, r.1, r.2) := by
  intro pre
  induction pre with
  | nil =>
    intro pos _ hr
    exact findFrom_of_head re pos b r l (by simpa using hr)
  | cons c cs ih =>
    intro pos h hr
    have h0 := h [] (c :: cs) rfl (by simp)
    simp only [List.length_nil, Nat.add_zero] at h0
    have h1 := ih (pos + 1)
      (fun a d had hd => by
        have := h (c :: a) d (by simp [had]) hd
        simpa [Nat.add_assoc, Nat.add_comm 1] using this)
      (by simpa [Nat.add_assoc, Nat.add_comm 1] using hr)
    rw [List.cons_append, findFrom_cons_of_nil re pos c (cs ++ b) h0, h1]
    simp [Nat.add_assoc, Nat.add_comm 1]

theorem findFrom_mem (re : Regexp) :
    ∀ (rest : Str) (pos a0 : Nat) (cur : Cursor) (caps : Caps),
      findFrom re pos rest = some (a0, cur, caps) →
      ∃ a b : Str, rest = a ++ b ∧ a0 = pos + a.length ∧ (cur, caps) ∈ re.run ⟨a0, b⟩ [] := by
  intro rest
  induction rest with
  | nil =>
    intro pos a0 cur caps h
    cases hr : re.run ⟨pos, []⟩ [] with
    | nil =>
      rw [findFrom_nil_of_nil re pos hr] at h
      cases h
    | cons r l =>
      rw [findFrom_of_head re pos [] r l hr] at h
      simp only [Option.some.injEq, Prod.mk.injEq] at h
      obtain ⟨rfl, rfl, rfl⟩ := h
      exact ⟨[], [], rfl, rfl, by simp [hr]⟩
  | cons c cs ih =>
    intro pos a0 cur caps h
    cases hr : re.run ⟨pos, c :: cs⟩ [] with
    | nil =>
      rw [findFrom_cons_of_nil re pos c cs hr] at h
      obtain ⟨a, b, hab, ha0, hm⟩ := ih (pos + 1) a0 cur caps h
      exact ⟨c :: a, b, by simp [hab], by simp [ha0]; omega, hm⟩
    | cons r l =>
      rw [findFrom_of_head re pos (c :: cs) r l hr] at h
      simp only [Option.some.injEq, Prod.mk.injEq] at h
      obtain ⟨rfl, rfl, rfl⟩ := h
      exact ⟨[], c :: cs, rfl, rfl, by simp [hr]⟩

/-! ## The replacement loop -/

theorem doExecute_pos_le (re : Regexp) (src : Str) (searchPos a0 : Nat) (cur : Cursor)
    (caps : Caps) (h : doExecute re src searchPos = some (a0, cur, caps)) :
    searchPos ≤ a0 ∧ a0 ≤ cur.pos := by
  obtain ⟨a, b, -, ha0, hmem⟩ := findFrom_mem re _ searchPos a0 cur caps h
  exact ⟨by omega, run_pos_le re ⟨a0, b⟩ [] (cur, caps) hmem⟩

/-- The rounds allotted by `ReplaceAllStringFunc` are never used up: with
`len(src) + 2 - searchPos` rounds or more, the loop gives the same text. -/
theorem replaceAllLoop_fuel (re : Regexp) (src : Str) (repl : Str → Str) :
    ∀ (n m lastMatchEnd searchPos : Nat) (buf : Str),
      src.length + 2 ≤ n + searchPos → src.length + 2 ≤ m + searchPos →
      replaceAllLoop re src repl n lastMatchEnd searchPos buf
        = replaceAllLoop re src repl m lastMatchEnd searchPos buf := by
  intro n
  induction n with
  | zero =>
    intro m last pos buf hn _
    cases m with
    | zero => rfl
    | succ m =>
      rw [replaceAllLoop, replaceAllLoop, if_neg (by omega)]
  | succ n ih =>
    intro m last pos buf hn hm
    cases m with
    | zero =>
      rw [replaceAllLoop, replaceAllLoop, if_neg (by omega)]
    | succ m =>
      rw [replaceAllLoop, replaceAllLoop]
      by_cases hle : pos ≤ src.length
      · rw [if_pos hle, if_pos hle]
        cases hex : doExecute re src pos with
        | none => rfl
        | some found =>
          obtain ⟨a0, cur, caps⟩ := found
          obtain ⟨h0, h1⟩ := doExecute_pos_le re src pos a0 cur caps hex
          have hnext : pos + 1 ≤
              (if pos + (if pos < src.length then 1 else 0) > cur.pos
                then pos + (if pos < src.length then 1 else 0)
                else if pos + 1 > cur.pos then pos + 1 else cur.pos) := by
            split_ifs <;> omega
          simp only
          apply ih
          · omega
          · omega
      · rw [if_neg hle, if_neg hle]

theorem ReplaceAllStringFunc_of_no_match (re : Regexp) (src : Str) (repl : Str → Str)
    (h : doExecute re src 0 = none) : ReplaceAllStringFunc re src repl = src := by
  simp [ReplaceAllStringFunc, replaceAllLoop, h]

theorem ReplaceAllStringFunc_of_one_match (re : Regexp) (pre mt post : Str) (repl : Str → Str)
    (cur : Cursor) (caps : Caps) (hmt : mt ≠ [])
    (hcur : cur.pos = pre.length + mt.length)
    (h1 : doExecute re (pre ++ mt ++ post) 0 = some (pre.length, cur, caps))
    (h2 : doExecute re (pre ++ mt ++ post) (pre.length + mt.length) = none) :
    ReplaceAllStringFunc re (pre ++ mt ++ post) repl = pre ++ repl mt ++ post := by
  have hlen : 0 < mt.length := List.length_pos.mpr hmt
  have hsrc : (pre ++ mt ++ post).length = pre.length + mt.length + post.length := by
    simp [Nat.add_assoc]
  have hpos : 0 < (pre ++ mt ++ post).length := by omega
  have hw : (if 0 < (pre ++ mt ++ post).length then 1 else 0) = 1 := if_pos hpos
  have hnext : (if 0 + 1 > pre.length + mt.length then 0 + 1
      else if 0 + 1 > pre.length + mt.length then 0 + 1 else pre.length + mt.length)
      = pre.length + mt.length := by
    rw [if_neg (by omega), if_neg (by omega)]
  have hle : pre.length + mt.length ≤ (pre ++ mt ++ post).length := by omega
  have htake : List.take (pre.length + mt.length - pre.length) (List.drop pre.length (pre ++ mt ++ post)) = mt := by
    rw [List.append_assoc, List.drop_left, Nat.add_sub_cancel_left, List.take_left]
  have hdrop : List.drop (pre.length + mt.length) (pre ++ mt ++ post) = post := by
    rw [← List.length_append, List.drop_left]
  unfold ReplaceAllStringFunc
  rw [hsrc]
  show replaceAllLoop re (pre ++ mt ++ post) repl ((pre.length + mt.length + post.length + 1) + 1) 0 0 [] = _
  rw [replaceAllLoop]
  simp only [Nat.zero_le, if_true, h1, hcur, hw, hnext]
  rw [replaceAllLoop]
  simp only [hle, if_true, h2, htake, hdrop]
  simp [hlen]

/-! ## The pattern `linkPath` -/

theorem mem_run_linkPath (cur : Cursor) (caps : Caps) (r : Cursor × Caps)
    (h : r ∈ linkPath.run cur caps) :
    ∃ w b : Str, cur.rest = '[' :: (w ++ ']' :: b) ∧ w ≠ [] ∧ '\n' ∉ w := by
  simp only [linkPath, mem_run_cat, mem_run_one, mem_run_plus, CharClass.accepts,
    beq_iff_eq] at h
  obtain ⟨m1, ⟨c, cs, hrest, rfl, rfl⟩, m2, ⟨w, hw, hacc, hcs, -, -⟩, x, xs, hx, rfl, -⟩ := h
  simp only at hcs
  refine ⟨w, xs, by rw [hrest, hcs, hx], hw, ?_⟩
  intro hmem
  have := hacc _ hmem
  simp at this

theorem run_close_nil (pos : Nat) (caps : Caps) :
    (Regexp.one (.lit ']')).run ⟨pos, []⟩ caps = [] := rfl

theorem run_close_ne (pos : Nat) (caps : Caps) (c : Char) (cs : Str) (hc : c ≠ ']') :
    (Regexp.one (.lit ']')).run ⟨pos, c :: cs⟩ caps = [] := by
  simp [Regexp.run, CharClass.accepts, hc]

theorem run_close_eq (pos : Nat) (caps : Caps) (cs : Str) :
    (Regexp.one (.lit ']')).run ⟨pos, ']' :: cs⟩ caps = [(⟨pos + 1, cs⟩, caps)] := by
  simp [Regexp.run, CharClass.accepts]

theorem starRun_cons_of_accepts (k : CharClass) (pos : Nat) (c : Char) (cs : Str)
    (h : k.accepts c = true) :
    starRun k pos (c :: cs) = starRun k (pos + 1) cs ++ [⟨pos, c :: cs⟩] := by
  rw [starRun, if_pos h]

theorem starRun_cons_of_not_accepts (k : CharClass) (pos : Nat) (c : Char) (cs : Str)
    (h : ¬ k.accepts c = true) :
    starRun k pos (c :: cs) = [⟨pos, c :: cs⟩] := by
  rw [starRun, if_neg h, List.nil_append]

theorem starRun_close_nil (k : CharClass) (caps : Caps) :
    ∀ (cs : Str) (pos : Nat), ']' ∉ cs →
      (starRun k pos cs).flatMap (fun e => (Regexp.one (.lit ']')).run e caps) = [] := by
  intro cs
  induction cs with
  | nil =>
    intro pos _
    simp only [starRun, List.flatMap_cons, List.flatMap_nil, run_close_nil, List.append_nil]
  | cons c cs ih =>
    intro pos h
    have hc : c ≠ ']' := fun hc => h (by simp [hc])
    have hcs : ']' ∉ cs := fun hm => h (List.mem_cons_of_mem _ hm)
    by_cases hk : k.accepts c = true
    · rw [starRun_cons_of_accepts k pos c cs hk, List.flatMap_append, ih (pos + 1) hcs]
      simp only [List.flatMap_cons, List.flatMap_nil, run_close_ne pos caps c cs hc,
        List.append_nil]
    · rw [starRun_cons_of_not_accepts k pos c cs hk]
      simp only [List.flatMap_cons, List.flatMap_nil, run_close_ne pos caps c cs hc,
        List.append_nil]

theorem starRun_close_head (caps : Caps) (tail : Str) (htail : ']' ∉ tail) :
    ∀ (mid : Str) (pos : Nat), '\n' ∉ mid →
      ∃ l, (starRun .anyNotNL pos (mid ++ ']' :: tail)).flatMap
          (fun e => (Regexp.one (.lit ']')).run e caps)
        = (⟨pos + mid.length + 1, tail⟩, caps) :: l := by
  intro mid
  induction mid with
  | nil =>
    intro pos _
    refine ⟨[], ?_⟩
    have hacc : CharClass.anyNotNL.accepts ']' = true := by decide
    rw [List.nil_append, starRun_cons_of_accepts _ pos _ tail hacc, List.flatMap_append,
      starRun_close_nil .anyNotNL caps tail (pos + 1) htail]
    simp only [List.flatMap_cons, List.flatMap_nil, run_close_eq, List.append_nil,
      List.nil_append, List.length_nil, Nat.add_zero]
  | cons c cs ih =>
    intro pos h
    have hc : c ≠ '\n' := fun hc => h (by simp [hc])
    have hcs : '\n' ∉ cs := fun hm => h (List.mem_cons_of_mem _ hm)
    have hacc : CharClass.anyNotNL.accepts c = true := by simp [CharClass.accepts, hc]
    obtain ⟨l, hl⟩ := ih (pos + 1) hcs
    refine ⟨l ++ (Regexp.one (.lit ']')).run ⟨pos, c :: (cs ++ ']' :: tail)⟩ caps, ?_⟩
    rw [List.cons_append, starRun_cons_of_accepts _ pos c _ hacc, List.flatMap_append, hl]
    have : pos + 1 + cs.length + 1 = pos + (c :: cs).length + 1 := by
      simp only [List.length_cons]; omega
    rw [this]
    simp only [List.flatMap_cons, List.flatMap_nil, List.append_nil, List.cons_append]

theorem run_linkPath_cons_cons (pos : Nat) (caps : Caps) (c : Char) (cs : Str)
    (hc : c ≠ '\n') :
    linkPath.run ⟨pos, '[' :: c :: cs⟩ caps
      = (starRun .anyNotNL (pos + 1 + 1) cs).flatMap
          (fun e => (Regexp.one (.lit ']')).run e caps) := by
  have hacc : CharClass.anyNotNL.accepts c = true := by simp [CharClass.accepts, hc]
  have hopen : (CharClass.lit '[').accepts '[' = true := by decide
  have h1 : (Regexp.one (.lit '[')).run ⟨pos, '[' :: c :: cs⟩ caps
      = [(⟨pos + 1, c :: cs⟩, caps)] := by
    simp only [Regexp.run, hopen, if_true]
  have h2 : (Regexp.plus .anyNotNL).run ⟨pos + 1, c :: cs⟩ caps
      = (starRun .anyNotNL (pos + 1 + 1) cs).map fun e => (e, caps) := by
    simp only [Regexp.run, hacc, if_true]
  show ((Regexp.one (.lit '[')).run ⟨pos, '[' :: c :: cs⟩ caps).flatMap
      (fun r => ((Regexp.plus .anyNotNL).run r.1 r.2).flatMap
        fun r2 => (Regexp.one (.lit ']')).run r2.1 r2.2) = _
  rw [h1]
  simp only [List.flatMap_cons, List.flatMap_nil, List.append_nil, h2, List.flatMap_map]

theorem run_linkPath_head (pos : Nat) (caps : Caps) (mid tail : Str) (hmid : mid ≠ [])
    (hnl : '\n' ∉ mid) (htail : ']' ∉ tail) :
    ∃ l, linkPath.run ⟨pos, '[' :: (mid ++ ']' :: tail)⟩ caps
      = (⟨pos + mid.length + 2, tail⟩, caps) :: l := by
  cases mid with
  | nil => exact absurd rfl hmid
  | cons c cs =>
    have hc : c ≠ '\n' := fun hc => hnl (by simp [hc])
    have hcs : '\n' ∉ cs := fun hm => hnl (List.mem_cons_of_mem _ hm)
    obtain ⟨l, hl⟩ := starRun_close_head caps tail htail cs (pos + 1 + 1) hcs
    refine ⟨l, ?_⟩
    rw [List.cons_append, run_linkPath_cons_cons pos caps c _ hc, hl]
    have : pos + 1 + 1 + cs.length + 1 = pos + (c :: cs).length + 2 := by
      simp only [List.length_cons]; omega
    rw [this]

theorem findFrom_linkPath_none (rest : Str) (pos : Nat)
    (h : ∀ a w b : Str, rest = a ++ '[' :: (w ++ ']' :: b) → w = [] ∨ '\n' ∈ w) :
    findFrom linkPath pos rest = none := by
  apply findFrom_none
  intro a b hab
  rw [List.eq_nil_iff_forall_not_mem]
  intro r hr
  obtain ⟨w, d, hb, hw, hnl⟩ := mem_run_linkPath _ _ r hr
  simp only at hb
  rcases h a w d (by rw [hab, hb]) with h1 | h1
  · exact hw h1
  · exact hnl h1

theorem ReplaceAllStringFunc_linkPath_one (pre mid post : Str) (repl : Str → Str)
    (hpre : '[' ∉ pre) (hmid : mid ≠ []) (hnl : '\n' ∉ mid) (hpost : ']' ∉ post) :
    ReplaceAllStringFunc linkPath (pre ++ '[' :: (mid ++ ']' :: post)) repl
      = pre ++ repl ('[' :: (mid ++ [']'])) ++ post := by
  obtain ⟨l, hl⟩ := run_linkPath_head (0 + pre.length) [] mid post hmid hnl hpost
  have hsrc : pre ++ '[' :: (mid ++ ']' :: post) = pre ++ ('[' :: (mid ++ [']'])) ++ post := by
    simp
  have h1 : doExecute linkPath (pre ++ ('[' :: (mid ++ [']'])) ++ post) 0
      = some (pre.length, ⟨0 + pre.length + mid.length + 2, post⟩, []) := by
    have := findFrom_some linkPath ('[' :: (mid ++ ']' :: post)) _ l pre 0 (by
      intro a c hac hc
      rw [List.eq_nil_iff_forall_not_mem]
      intro r hr
      obtain ⟨w, d, hb, -, -⟩ := mem_run_linkPath _ _ r hr
      simp only at hb
      cases c with
      | nil => exact hc rfl
      | cons x xs =>
        simp only [List.cons_append, List.cons.injEq] at hb
        apply hpre
        rw [hac, ← hb.1]
        simp) hl
    rw [doExecute, List.drop_zero, ← hsrc, this]
    simp
  have h2 : doExecute linkPath (pre ++ ('[' :: (mid ++ [']'])) ++ post)
      (pre.length + ('[' :: (mid ++ [']'])).length) = none := by
    rw [doExecute, ← List.length_append, List.drop_left]
    apply findFrom_linkPath_none
    intro a w b hab
    exact absurd (by rw [hab]; simp) hpost
  rw [hsrc]
  exact ReplaceAllStringFunc_of_one_match linkPath pre ('[' :: (mid ++ [']'])) post repl _ []
    (by simp) (by simp; omega) h1 h2

theorem linkFunc_brackets (t : Str) :
    linkFunc ('[' :: (t ++ [']']))
      = "<a href=\"/view/".toList ++ t ++ "\">".toList ++ t ++ "</a>".toList := by
  have h : (('[' :: (t ++ [']'])).take (('[' :: (t ++ [']'])).length - 1)).drop 1 = t := by
    have hlen : ('[' :: (t ++ [']'])).length - 1 = ('[' :: t).length := by simp
    rw [hlen, ← List.cons_append, List.take_left]
    rfl
  simp only [linkFunc, h]

theorem renderTemplateWithWikiSyntax_body (ExecuteTemplate : Str → Page → Str × Option Str)
    (w : ResponseWriter) (tmpl : Str) (p : Page)
    (h : (ExecuteTemplate (tmpl ++ ".html".toList) p).2 = none) :
    (renderTemplateWithWikiSyntax ExecuteTemplate w tmpl p).body
      = w.body ++ wikiSyntax (ExecuteTemplate (tmpl ++ ".html".toList) p).1 := by
  simp only [renderTemplateWithWikiSyntax, h, ResponseWriter.Write]

theorem split_at_first (x : Char) :
    ∀ (p a r r1 : Str), x ∉ p → p ++ x :: r = a ++ x :: r1 →
      (a = p ∧ r = r1) ∨ ∃ a1, a = p ++ x :: a1 ∧ r = a1 ++ x :: r1 := by
  intro p
  induction p with
  | nil =>
    intro a r r1 _ h
    cases a with
    | nil =>
      left
      simp only [List.nil_append, List.cons.injEq, true_and] at h
      exact ⟨rfl, h⟩
    | cons y a =>
      right
      simp only [List.nil_append, List.cons_append, List.cons.injEq] at h
      exact ⟨a, by simp [h.1], h.2⟩
  | cons c p ih =>
    intro a r r1 hx h
    have hc : x ≠ c := fun hc => hx (by simp [hc])
    have hp : x ∉ p := fun hm => hx (List.mem_cons_of_mem _ hm)
    cases a with
    | nil =>
      simp only [List.nil_append, List.cons_append, List.cons.injEq] at h
      exact absurd h.1.symm hc
    | cons y a =>
      simp only [List.cons_append, List.cons.injEq] at h
      obtain ⟨rfl, h⟩ := h
      rcases ih a r r1 hp h with ⟨rfl, hr⟩ | ⟨a1, rfl, hr⟩
      · exact Or.inl ⟨rfl, hr⟩
      · exact Or.inr ⟨a1, by simp, hr⟩

/-! ## The link rewrite -/

/-- C3: for a prefix `p` without `[`, a non-empty title `t` without bracket and
without newline, and a suffix `s` without `]`, the link rewrite turns
`p ++ "[" ++ t ++ "]" ++ s` into `p`, the link to `t` labelled `t`, and `s`. -/
theorem wikiSyntax_single_token (p t s : Str) (hp : '[' ∉ p) (ht : t ≠ [])
    (_hto : '[' ∉ t) (_htc : ']' ∉ t) (htn : '\n' ∉ t) (hs : ']' ∉ s) :
    wikiSyntax (p ++ "[".toList ++ t ++ "]".toList ++ s) = p ++ anchor t t ++ s := by
  have h := ReplaceAllStringFunc_linkPath_one p t s linkFunc hp ht htn hs
  have hsrc : p ++ "[".toList ++ t ++ "]".toList ++ s = p ++ '[' :: (t ++ ']' :: s) := by
    simp
  rw [wikiSyntax, hsrc, h, linkFunc_brackets]
  rfl

/-- C3 at the input of the specification: `see [FrontPage] for more`. -/
theorem wikiSyntax_single_token_witness :
    wikiSyntax "see [FrontPage] for more".toList
      = "see <a href=\"/view/FrontPage\">FrontPage</a> for more".toList :=
  wikiSyntax_single_token "see ".toList "FrontPage".toList " for more".toList
    (by decide) (by decide) (by decide) (by decide) (by decide) (by decide)

/-- C4, as stated, fails: the rewrite of `[A][B]` is not the link to `A`
followed by the link to `B`; it is one link whose title is `A][B`. -/
theorem wikiSyntax_adjacent_counterexample :
    wikiSyntax "[A][B]".toList
        ≠ anchor "A".toList "A".toList ++ anchor "B".toList "B".toList
      ∧ wikiSyntax "[A][B]".toList = anchor "A][B".toList "A][B".toList := by
  decide

/-- C4, amended: for non-empty titles `t1` and `t2` without bracket and without
newline, `[t1][t2]` is one match, from the first `[` to the last `]`: whatever
the replacement function, it is applied once, to the whole text, and the link
rewrite gives a single link whose destination and label are `t1][t2`. -/
theorem wikiSyntax_adjacent_one_match (t1 t2 : Str) (h1 : t1 ≠ [])
    (_h1o : '[' ∉ t1) (_h1c : ']' ∉ t1) (h1n : '\n' ∉ t1)
    (_h2 : t2 ≠ []) (_h2o : '[' ∉ t2) (_h2c : ']' ∉ t2) (h2n : '\n' ∉ t2) :
    (∀ repl : Str → Str,
        ReplaceAllStringFunc linkPath ("[".toList ++ t1 ++ "][".toList ++ t2 ++ "]".toList) repl
          = repl ("[".toList ++ t1 ++ "][".toList ++ t2 ++ "]".toList))
      ∧ wikiSyntax ("[".toList ++ t1 ++ "][".toList ++ t2 ++ "]".toList)
          = anchor (t1 ++ "][".toList ++ t2) (t1 ++ "][".toList ++ t2) := by
  have hmid : t1 ++ "][".toList ++ t2 ≠ [] := by
    intro h
    exact h1 (List.append_eq_nil.mp (List.append_eq_nil.mp h).1).1
  have hnl : '\n' ∉ t1 ++ "][".toList ++ t2 := by
    intro h
    rcases List.mem_append.mp h with h | h
    · rcases List.mem_append.mp h with h | h
      · exact h1n h
      · revert h
        decide
    · exact h2n h
  have hsrc : "[".toList ++ t1 ++ "][".toList ++ t2 ++ "]".toList
      = [] ++ '[' :: ((t1 ++ "][".toList ++ t2) ++ ']' :: []) := by
    simp
  have hone := fun repl =>
    ReplaceAllStringFunc_linkPath_one [] (t1 ++ "][".toList ++ t2) [] repl
      (List.not_mem_nil _) hmid hnl (List.not_mem_nil _)
  constructor
  · intro repl
    rw [hsrc, hone repl]
    simp
  · rw [wikiSyntax, hsrc, hone linkFunc, linkFunc_brackets]
    simp [anchor]

/-- C4 amended, at `[A][B]`. -/
theorem wikiSyntax_adjacent_one_match_witness :
    wikiSyntax "[A][B]".toList = anchor "A][B".toList "A][B".toList :=
  (wikiSyntax_adjacent_one_match "A".toList "B".toList (by decide) (by decide) (by decide)
    (by decide) (by decide) (by decide) (by decide) (by decide)).2

/-- C5: in a text where no `[` is followed later by a `]` the pattern has no
match, and the link rewrite returns the text as it is. -/
theorem wikiSyntax_no_closing (s : Str)
    (h : ∀ a b : Str, s = a ++ '[' :: b → ']' ∉ b) :
    doExecute linkPath s 0 = none ∧ wikiSyntax s = s := by
  have hnone : doExecute linkPath s 0 = none := by
    rw [doExecute, List.drop_zero]
    apply findFrom_linkPath_none
    intro a w b hab
    exact absurd (by simp) (h a (w ++ ']' :: b) hab)
  exact ⟨hnone, ReplaceAllStringFunc_of_no_match linkPath s linkFunc hnone⟩

/-- C5 at the input of the specification: `no closing [`. -/
theorem wikiSyntax_no_closing_witness :
    doExecute linkPath "no closing [".toList 0 = none
      ∧ wikiSyntax "no closing [".toList = "no closing [".toList :=
  wikiSyntax_no_closing "no closing [".toList (by
    intro a b hab hmem
    have h2 : ']' ∈ "no closing [".toList := by
      rw [hab]
      simp [hmem]
    revert h2
    decide)

/-- C6, as stated, fails: the rewrite of `[]` is not a link with the empty
title; the text is returned as it is. -/
theorem wikiSyntax_empty_brackets_counterexample :
    wikiSyntax "[]".toList ≠ "<a href=\"/view/\"></a>".toList
      ∧ wikiSyntax "[]".toList = "[]".toList := by
  decide

/-- C6, amended: for `p` and `s` without bracket, the pattern has no match in
`p ++ "[]" ++ s`, and the link rewrite returns that text as it is. -/
theorem wikiSyntax_empty_brackets (p s : Str) (hpo : '[' ∉ p) (_hpc : ']' ∉ p)
    (hso : '[' ∉ s) (hsc : ']' ∉ s) :
    doExecute linkPath (p ++ "[]".toList ++ s) 0 = none
      ∧ wikiSyntax (p ++ "[]".toList ++ s) = p ++ "[]".toList ++ s := by
  have hnone : doExecute linkPath (p ++ "[]".toList ++ s) 0 = none := by
    rw [doExecute, List.drop_zero]
    apply findFrom_linkPath_none
    intro a w b hab
    have hsrc : p ++ "[]".toList ++ s = p ++ '[' :: (']' :: s) := by simp
    rw [hsrc] at hab
    rcases split_at_first '[' p a _ _ hpo hab with ⟨-, h⟩ | ⟨a1, -, h⟩
    · cases w with
      | nil => exact Or.inl rfl
      | cons x w =>
        simp only [List.cons_append, List.cons.injEq] at h
        exact absurd (by rw [h.2]; simp) hsc
    · have hmem : '[' ∈ ']' :: s := by
        rw [h]
        simp
      rcases List.mem_cons.mp hmem with h1 | h1
      · exact absurd h1 (by decide)
      · exact absurd h1 hso
  exact ⟨hnone, ReplaceAllStringFunc_of_no_match linkPath _ linkFunc hnone⟩

/-- C6 amended, at `a[]b`. -/
theorem wikiSyntax_empty_brackets_witness :
    doExecute linkPath "a[]b".toList 0 = none ∧ wikiSyntax "a[]b".toList = "a[]b".toList :=
  wikiSyntax_empty_brackets "a".toList "b".toList (by decide) (by decide) (by decide)
    (by decide)

/-- C9: in a text without newline whose first `[` is at index `i` and whose
last `]` is at index `j`, with `j ≥ i + 2`, there is exactly one match, the
span from `i` to `j`: whatever the replacement function, it is applied once, to
that span, between the unchanged text before `i` and after `j`; and the link
rewrite puts there one link whose destination and label are the text strictly
between `i` and `j`, as it stands. -/
theorem wikiSyntax_widest_span (s : Str) (i j : Nat) (hnl : '\n' ∉ s)
    (hi : s[i]? = some '[') (hfirst : ∀ k, k < i → s[k]? ≠ some '[')
    (hj : s[j]? = some ']') (hlast : ∀ k, j < k → s[k]? ≠ some ']')
    (hij : i + 2 ≤ j) :
    (∀ repl : Str → Str,
        ReplaceAllStringFunc linkPath s repl
          = s.take i ++ repl ((s.drop i).take (j + 1 - i)) ++ s.drop (j + 1))
      ∧ wikiSyntax s
          = s.take i ++ anchor ((s.drop (i + 1)).take (j - (i + 1)))
              ((s.drop (i + 1)).take (j - (i + 1))) ++ s.drop (j + 1) := by
  obtain ⟨hilt, hiv⟩ := List.getElem?_eq_some_iff.mp hi
  obtain ⟨hjlt, hjv⟩ := List.getElem?_eq_some_iff.mp hj
  have hmidlen : ((s.drop (i + 1)).take (j - (i + 1))).length = j - (i + 1) := by
    rw [List.length_take, List.length_drop]
    omega
  have hdec : s = s.take i ++ '[' :: ((s.drop (i + 1)).take (j - (i + 1)) ++ ']' :: s.drop (j + 1)) := by
    have e1 : s.drop i = '[' :: s.drop (i + 1) := by
      rw [List.drop_eq_getElem_cons hilt, hiv]
    have e2 : (s.drop (i + 1)).drop (j - (i + 1)) = ']' :: s.drop (j + 1) := by
      rw [List.drop_drop, show i + 1 + (j - (i + 1)) = j by omega,
        List.drop_eq_getElem_cons hjlt, hjv]
    calc s = s.take i ++ s.drop i := (List.take_append_drop i s).symm
      _ = s.take i ++ '[' :: s.drop (i + 1) := by rw [e1]
      _ = s.take i ++ '[' :: ((s.drop (i + 1)).take (j - (i + 1))
            ++ (s.drop (i + 1)).drop (j - (i + 1))) := by rw [List.take_append_drop]
      _ = _ := by rw [e2]
  have hpre : '[' ∉ s.take i := by
    intro hmem
    obtain ⟨k, hk⟩ := List.mem_iff_getElem?.mp hmem
    rw [List.getElem?_take] at hk
    by_cases hlt : k < i
    · rw [if_pos hlt] at hk
      exact hfirst k hlt hk
    · rw [if_neg hlt] at hk
      cases hk
  have hpost : ']' ∉ s.drop (j + 1) := by
    intro hmem
    obtain ⟨k, hk⟩ := List.mem_iff_getElem?.mp hmem
    rw [List.getElem?_drop] at hk
    exact hlast (j + 1 + k) (by omega) hk
  have hmid : (s.drop (i + 1)).take (j - (i + 1)) ≠ [] := by
    intro h
    rw [h] at hmidlen
    simp at hmidlen
    omega
  have hmidnl : '\n' ∉ (s.drop (i + 1)).take (j - (i + 1)) := fun hmem =>
    hnl (List.mem_of_mem_drop (List.mem_of_mem_take hmem))
  have hspan : (s.drop i).take (j + 1 - i)
      = '[' :: ((s.drop (i + 1)).take (j - (i + 1)) ++ [']']) := by
    have hl : (s.take i).length = i := by
      rw [List.length_take]
      omega
    have e : s.drop i = '[' :: ((s.drop (i + 1)).take (j - (i + 1)) ++ ']' :: s.drop (j + 1)) := by
      conv_lhs => rw [hdec]
      rw [List.drop_append_of_le_length (by omega)]
      rw [List.drop_of_length_le (by omega), List.nil_append]
    rw [e]
    have e3 : '[' :: ((s.drop (i + 1)).take (j - (i + 1)) ++ ']' :: s.drop (j + 1))
        = ('[' :: ((s.drop (i + 1)).take (j - (i + 1)) ++ [']'])) ++ s.drop (j + 1) := by simp
    have e4 : j + 1 - i = ('[' :: ((s.drop (i + 1)).take (j - (i + 1)) ++ [']'])).length := by
      simp [hmidlen]
      omega
    rw [e3, e4, List.take_left]
  have hone := fun repl =>
    ReplaceAllStringFunc_linkPath_one (s.take i) ((s.drop (i + 1)).take (j - (i + 1)))
      (s.drop (j + 1)) repl hpre hmid hmidnl hpost
  constructor
  · intro repl
    rw [hspan, ← hone repl, ← hdec]
  · rw [wikiSyntax]
    conv_lhs => rw [hdec]
    rw [hone linkFunc, linkFunc_brackets]
    simp [anchor]

/-- C9 at `x[[a]b]y`: first `[` at index 1, last `]` at index 6. -/
theorem wikiSyntax_widest_span_witness :
    (∀ repl : Str → Str,
        ReplaceAllStringFunc linkPath "x[[a]b]y".toList repl
          = "x".toList ++ repl "[[a]b]".toList ++ "y".toList)
      ∧ wikiSyntax "x[[a]b]y".toList
          = "x".toList ++ anchor "[a]b".toList "[a]b".toList ++ "y".toList :=
  wikiSyntax_widest_span "x[[a]b]y".toList 1 6 (by decide) (by decide)
    (by intro k hk; interval_cases k; decide) (by decide)
    (by
      intro k hk
      have hlen : "x[[a]b]y".toList.length = 8 := by decide
      by_cases h7 : k = 7
      · subst h7
        decide
      · rw [List.getElem?_eq_none (by omega)]
        exact fun h => by cases h)
    (by decide)

/-! ## The page store -/

theorem splitOn_of_not_mem (sep : Char) :
    ∀ a : Str, sep ∉ a → splitOn sep a = [a] := by
  intro a
  induction a with
  | nil => intro _; rfl
  | cons c cs ih =>
    intro h
    have hc : c ≠ sep := fun hc => h (by simp [hc])
    have hcs : sep ∉ cs := fun hm => h (List.mem_cons_of_mem _ hm)
    simp only [splitOn, if_neg hc, ih hcs]

theorem splitOn_append_sep (sep : Char) (b : Str) :
    ∀ a : Str, sep ∉ a → splitOn sep (a ++ sep :: b) = a :: splitOn sep b := by
  intro a
  induction a with
  | nil =>
    intro _
    simp only [List.nil_append, splitOn, if_true]
  | cons c cs ih =>
    intro h
    have hc : c ≠ sep := fun hc => h (by simp [hc])
    have hcs : sep ∉ cs := fun hm => h (List.mem_cons_of_mem _ hm)
    have e : splitOn sep (c :: (cs ++ sep :: b))
        = match splitOn sep (cs ++ sep :: b) with
          | [] => [[c]]
          | seg :: segs => (c :: seg) :: segs := by
      simp only [splitOn, if_neg hc]
    rw [List.cons_append, e, ih hcs]

theorem length_le_utf8Len (a : Str) : a.length ≤ utf8Len a := by
  induction a with
  | nil => simp [utf8Len]
  | cons c cs ih =>
    have hc : 0 < c.utf8Size := Char.utf8Size_pos c
    simp only [utf8Len, List.length_cons]
    omega

/-- C2, as stated, fails: for the title `../x` the path of `save`,
`data/../x.txt`, denotes `x.txt` in the working directory, outside `data`, and
`save` writes the file there. -/
theorem save_path_counterexample :
    insideDataDir (resolve (filename "../x".toList)) = false
      ∧ resolve (filename "../x".toList) = ["x.txt".toList]
      ∧ ∃ fs1, Page.save ⟨"../x".toList, [104, 105]⟩ fsAfterSetup = .ok fs1
          ∧ fs1.lookup ["x.txt".toList] = some (.file true true [104, 105]) :=
  ⟨by decide, by decide, _, rfl, by decide⟩

/-- C2, amended: for every title `t` without `/`, so for every title the routes
let through, the path of `save` and `loadPage` denotes the entry `t ++ ".txt"`
of the directory `dataDir`, a location inside `dataDir`. -/
theorem save_path_inside (t : Str) (h : '/' ∉ t) :
    resolve (filename t) = [dataDir, t ++ ".txt".toList]
      ∧ insideDataDir (resolve (filename t)) = true := by
  have hsplit : splitOn '/' (filename t) = [dataDir, t ++ ".txt".toList] := by
    have h1 : filename t = dataDir ++ '/' :: (t ++ ".txt".toList) := by
      simp [filename]
    have h2 : '/' ∉ t ++ ".txt".toList := by
      intro hm
      rcases List.mem_append.mp hm with hm | hm
      · exact h hm
      · revert hm
        decide
    rw [h1, splitOn_append_sep '/' _ dataDir (by decide), splitOn_of_not_mem '/' _ h2]
  have hlen : 4 ≤ (t ++ ".txt".toList).length := by
    rw [List.length_append]
    exact Nat.le_add_left _ _
  have n0 : ¬ (t ++ ".txt".toList = []) := by
    intro e
    rw [e] at hlen
    exact absurd hlen (by decide)
  have n1 : ¬ (t ++ ".txt".toList = ".".toList) := by
    intro e
    rw [e] at hlen
    exact absurd hlen (by decide)
  have n2 : ¬ (t ++ ".txt".toList = "..".toList) := by
    intro e
    rw [e] at hlen
    exact absurd hlen (by decide)
  have hres : resolve (filename t) = [dataDir, t ++ ".txt".toList] := by
    have hd : cleanStep [] dataDir = [dataDir] := by decide
    simp only [resolve, hsplit, List.foldl_cons, List.foldl_nil, hd]
    simp only [cleanStep, n0, n1, n2, or_self, if_false, List.reverse_cons, List.reverse_nil,
      List.nil_append, List.singleton_append]
  refine ⟨hres, ?_⟩
  rw [hres]
  have hr : resolve dataDir = [dataDir] := by decide
  simp [insideDataDir, hr]

/-- C2 amended, at the title `FrontPage`. -/
theorem save_path_inside_witness :
    resolve (filename "FrontPage".toList) = [dataDir, "FrontPage.txt".toList]
      ∧ insideDataDir (resolve (filename "FrontPage".toList)) = true :=
  save_path_inside "FrontPage".toList (by decide)

/-! ## Routing -/

theorem accepts_alnum_iff (c : Char) :
    (CharClass.ranges [('a', 'z'), ('A', 'Z'), ('0', '9')]).accepts c = c.isAlphanum := by
  have h1 : ('a' ≤ c) = (c.val ≥ 97) := rfl
  have h2 : (c ≤ 'z') = (c.val ≤ 122) := rfl
  have h3 : ('A' ≤ c) = (c.val ≥ 65) := rfl
  have h4 : (c ≤ 'Z') = (c.val ≤ 90) := rfl
  have h5 : ('0' ≤ c) = (c.val ≥ 48) := rfl
  have h6 : (c ≤ '9') = (c.val ≤ 57) := rfl
  simp only [CharClass.accepts, List.any_cons, List.any_nil, Bool.or_false, Char.isAlphanum,
    Char.isAlpha, Char.isUpper, Char.isLower, Char.isDigit, h1, h2, h3, h4, h5, h6]
  cases decide (c.val ≥ 97) <;> cases decide (c.val ≤ 122) <;> cases decide (c.val ≥ 65) <;>
    cases decide (c.val ≤ 90) <;> rfl

/-- The three actions of the routes. -/
theorem mem_run_actions (cur : Cursor) (caps : Caps) (r : Cursor × Caps) :
    r ∈ (Regexp.alt (.str "edit".toList) (.alt (.str "save".toList) (.str "view".toList))).run
        cur caps ↔
      ∃ a : Str, (a = "edit".toList ∨ a = "save".toList ∨ a = "view".toList)
        ∧ cur.rest = a ++ r.1.rest ∧ r.1.pos = cur.pos + 4 ∧ r.2 = caps := by
  simp only [mem_run_alt, mem_run_str]
  constructor
  · rintro (h | h | h)
    · exact ⟨_, Or.inl rfl, h⟩
    · exact ⟨_, Or.inr (Or.inl rfl), h⟩
    · exact ⟨_, Or.inr (Or.inr rfl), h⟩
  · rintro ⟨a, rfl | rfl | rfl, h⟩
    · exact Or.inl h
    · exact Or.inr (Or.inl h)
    · exact Or.inr (Or.inr h)

theorem accepts_lit_iff (x c : Char) : (CharClass.lit x).accepts c = true ↔ c = x := by
  simp [CharClass.accepts]

theorem mem_run_validPath (cur : Cursor) (caps : Caps) (r : Cursor × Caps) :
    r ∈ validPath.run cur caps ↔
      cur.pos = 0 ∧ ∃ a t : Str,
        (a = "edit".toList ∨ a = "save".toList ∨ a = "view".toList)
        ∧ cur.rest = '/' :: (a ++ '/' :: t) ∧ t ≠ [] ∧ (∀ c ∈ t, c.isAlphanum = true)
        ∧ r = (⟨cur.rest.length, []⟩, (2, t) :: (1, a) :: caps) := by
  obtain ⟨pos, rest⟩ := cur
  simp only [validPath, mem_run_cat, mem_run_bot, mem_run_one, mem_run_cap, mem_run_actions,
    mem_run_plus, mem_run_eot, accepts_alnum_iff, accepts_lit_iff]
  constructor
  · rintro ⟨m0, ⟨hpos, rfl⟩, m1, ⟨c1, cs1, hrest1, rfl, rfl⟩, m2,
      ⟨⟨⟨p2, r2⟩, k2⟩, ⟨a, ha, hrest2, hpos2, hcaps2⟩, rfl⟩, m3, ⟨c3, cs3, hrest3, rfl, rfl⟩, m4,
      ⟨⟨⟨p4, r4⟩, k4⟩, ⟨t, htne, htacc, hrest4, hpos4, hcaps4⟩, rfl⟩, hend, rfl⟩
    simp only at hpos hrest1 hrest2 hpos2 hcaps2 hrest3 hrest4 hpos4 hcaps4 hend
    subst hpos
    subst hend
    subst hcaps2
    subst hcaps4
    have hlen : a.length = 4 := by
      rcases ha with rfl | rfl | rfl <;> rfl
    have hcs1 : cs1 = a ++ '/' :: t := by
      rw [hrest2, hrest3, hrest4, List.append_nil]
    refine ⟨rfl, a, t, ha, by rw [hrest1, hcs1], htne, htacc, ?_⟩
    have e1 : List.take (p2 - (0 + 1)) cs1 = a := by
      rw [hpos2, hcs1, show 0 + 1 + 4 - (0 + 1) = a.length by rw [hlen], List.take_left]
    have e2 : List.take (p4 - (p2 + 1)) cs3 = t := by
      rw [hpos4, hrest4, Nat.add_sub_cancel_left, List.append_nil, List.take_length]
    have e3 : p4 = rest.length := by
      rw [hpos4, hpos2, hrest1, hcs1]
      simp [hlen]
      omega
    rw [e1, e2, e3]
  · rintro ⟨hpos, a, t, ha, hrest, htne, htacc, rfl⟩
    have hpos0 : pos = 0 := hpos
    have hrest0 : rest = '/' :: (a ++ '/' :: t) := hrest
    subst hpos0
    subst hrest0
    have hlen : a.length = 4 := by
      rcases ha with rfl | rfl | rfl <;> rfl
    refine ⟨_, ⟨rfl, rfl⟩, _, ⟨'/', a ++ '/' :: t, rfl, rfl, rfl⟩, _,
      ⟨(⟨0 + 1 + 4, '/' :: t⟩, caps), ⟨a, ha, rfl, rfl, rfl⟩, rfl⟩, _,
      ⟨'/', t, rfl, rfl, rfl⟩, _,
      ⟨(⟨0 + 1 + 4 + 1 + t.length, []⟩, (1, a) :: caps),
        ⟨t, htne, htacc, by simp, rfl, ?_⟩, rfl⟩, rfl, ?_⟩
    · show _ = (1, List.take (0 + 1 + 4 - (0 + 1)) (a ++ '/' :: t)) :: caps
      rw [show 0 + 1 + 4 - (0 + 1) = a.length by rw [hlen], List.take_left]
    · show _ = ((⟨0 + 1 + 4 + 1 + t.length, []⟩ : Cursor),
        (2, List.take (0 + 1 + 4 + 1 + t.length - (0 + 1 + 4 + 1)) t) :: (1, a) :: caps)
      rw [Nat.add_sub_cancel_left, List.take_length]
      simp [hlen]
      omega

theorem FindStringSubmatch_validPath_of_ne (path : Str)
    (h : FindStringSubmatch validPath path ≠ []) :
    ∃ a t : Str, (a = "edit".toList ∨ a = "save".toList ∨ a = "view".toList)
      ∧ path = '/' :: (a ++ '/' :: t) ∧ t ≠ [] ∧ (∀ c ∈ t, c.isAlphanum = true)
      ∧ FindStringSubmatch validPath path = [path, a, t] := by
  unfold FindStringSubmatch at h ⊢
  cases hex : doExecute validPath path 0 with
  | none => simp [hex] at h
  | some found =>
    obtain ⟨a0, cur, caps⟩ := found
    rw [doExecute, List.drop_zero] at hex
    obtain ⟨x, b, hxb, ha0, hmem⟩ := findFrom_mem validPath path 0 a0 cur caps hex
    obtain ⟨hpos, a, t, ha, hb, htne, htacc, hr⟩ := (mem_run_validPath _ _ _).mp hmem
    have hpos0 : a0 = 0 := hpos
    have hb0 : b = '/' :: (a ++ '/' :: t) := hb
    have hx : x = [] := by
      apply List.eq_nil_of_length_eq_zero
      omega
    subst hx
    subst hpos0
    rw [List.nil_append] at hxb
    subst hxb
    obtain ⟨rfl, rfl⟩ := Prod.mk.inj hr
    refine ⟨a, t, ha, hb0, htne, htacc, ?_⟩
    have hn : validPath.NumSubexp = 2 := by decide
    simp only [hn]
    simp [List.range, List.range.loop, group]

theorem FindStringSubmatch_validPath_of_route (a t : Str)
    (ha : a = "edit".toList ∨ a = "save".toList ∨ a = "view".toList) (ht : t ≠ [])
    (hacc : ∀ c ∈ t, c.isAlphanum = true) :
    FindStringSubmatch validPath ('/' :: (a ++ '/' :: t)) = ['/' :: (a ++ '/' :: t), a, t] := by
  have hmem := (mem_run_validPath ⟨0, '/' :: (a ++ '/' :: t)⟩ []
    (⟨('/' :: (a ++ '/' :: t)).length, []⟩, [(2, t), (1, a)])).mpr
      ⟨rfl, a, t, ha, rfl, ht, hacc, rfl⟩
  have hne : FindStringSubmatch validPath ('/' :: (a ++ '/' :: t)) ≠ [] := by
    unfold FindStringSubmatch
    cases hrun : validPath.run ⟨0, '/' :: (a ++ '/' :: t)⟩ [] with
    | nil =>
      rw [hrun] at hmem
      cases hmem
    | cons r l =>
      rw [doExecute, List.drop_zero, findFrom_of_head validPath 0 _ r l hrun]
      simp
  obtain ⟨a1, t1, ha1, hpath, -, -, hres⟩ := FindStringSubmatch_validPath_of_ne _ hne
  have hlen : a.length = a1.length := by
    rcases ha with rfl | rfl | rfl <;> rcases ha1 with rfl | rfl | rfl <;> rfl
  have heq : a ++ '/' :: t = a1 ++ '/' :: t1 := List.tail_eq_of_cons_eq hpath
  obtain ⟨rfl, h2⟩ := List.append_inj heq hlen
  obtain ⟨-, rfl⟩ := List.cons.inj h2
  exact hres

theorem makeHandle_of_no_match (path : Str) (h : FindStringSubmatch validPath path = []) :
    makeHandle path = ⟨[.notFound], .indexOutOfRange 2 0⟩ := by
  simp [makeHandle, h]

theorem makeHandle_of_route (a t : Str)
    (ha : a = "edit".toList ∨ a = "save".toList ∨ a = "view".toList) (ht : t ≠ [])
    (hacc : ∀ c ∈ t, c.isAlphanum = true) :
    makeHandle ('/' :: (a ++ '/' :: t))
      = ⟨[.logStarted a t, .handle t, .logFinished a t], .returned⟩ := by
  simp [makeHandle, FindStringSubmatch_validPath_of_route a t ha ht hacc]

/-- C8: the handler made by `makeHandle` calls the wrapped handler with the
title `t` exactly when the request path is `/edit/`, `/save/` or `/view/`
followed by `t` up to the end of the path, with `t` a non-empty string of ASCII
letters and digits; so every title that reaches `loadPage` or `save` through
the routes is such a string. -/
theorem makeHandle_handle_iff (path t : Str) :
    Event.handle t ∈ (makeHandle path).events ↔
      ∃ a : Str, (a = "edit".toList ∨ a = "save".toList ∨ a = "view".toList)
        ∧ path = "/".toList ++ a ++ "/".toList ++ t ∧ validTitle t := by
  constructor
  · intro h
    by_cases hm : FindStringSubmatch validPath path = []
    · rw [makeHandle_of_no_match path hm] at h
      simp at h
    · obtain ⟨a, t1, ha, hpath, htne, htacc, -⟩ := FindStringSubmatch_validPath_of_ne path hm
      rw [hpath, makeHandle_of_route a t1 ha htne htacc] at h
      simp only [List.mem_cons, Event.handle.injEq, List.mem_singleton, List.not_mem_nil,
        or_false, false_or, reduceCtorEq] at h
      subst h
      exact ⟨a, ha, by rw [hpath]; simp, htne, htacc⟩
  · rintro ⟨a, ha, hpath, htne, htacc⟩
    have hp : path = '/' :: (a ++ '/' :: t) := by rw [hpath]; simp
    rw [hp, makeHandle_of_route a t ha htne htacc]
    simp

/-- C10, on the code: for the path `/view/`, which `validPath` does not match,
the handler calls `http.NotFound` and then, going on to `m[2]` with `m` nil,
ends in the panic `index out of range [2] with length 0`; it does not return
normally. -/
theorem makeHandle_no_match_panics :
    FindStringSubmatch validPath "/view/".toList = []
      ∧ makeHandle "/view/".toList = ⟨[.notFound], .indexOutOfRange 2 0⟩ := by
  decide

end Wiki
